import Mathlib

set_option maxRecDepth 8000
set_option maxHeartbeats 1000000

namespace DistDisc

/-! Shallow embedding of the PSI bin-discretization notebook
(`psi_ip_ortools_train_test_histogram_data.ipynb`).

Histogram rows are functions `ℕ → ℚ` over offset positions of the integer
support `[300, 850)` (the code's `min_edge, max_edge = 300, 850`);
day-to-day transition labels are `Fin 2`; the MILP edge variables form a
boolean assignment `ℕ → ℕ → Bool` read on pairs `i < j < train_size`.
The `np.log` calls of the source are an external math-library function and
enter the embedding as an explicit parameter `lg : ℚ → ℚ`; floating-point
values are embedded as exact rationals. -/

/-- number of discrete support positions, `train_size = len(np.arange(300, 851))`. -/
def trainSize : ℕ := 551

/-- smoothing constant of the source, `epsilon = 1e-8`. -/
def eps8 : ℚ := 1 / 100000000

/-- guard of the source's variable scans: `j > i and x[i, j] = 1`. -/
def edgePred (x : ℕ → ℕ → Bool) (p : ℕ) : ℕ → Bool :=
  fun j => decide (p < j) && x p j

/-- inbound degree of position `p`: the value of `solver.Sum(x[: p, p])`
on a binary assignment. -/
def indeg (x : ℕ → ℕ → Bool) (p : ℕ) : ℕ :=
  ((List.range p).filter (fun i => x i p)).length

/-- outbound degree of position `p`: the value of `solver.Sum(x[p, p + 1 :])`
on a binary assignment. -/
def outdeg (x : ℕ → ℕ → Bool) (n p : ℕ) : ℕ :=
  ((List.range n).filter (edgePred x p)).length

/-- pair `(i, j)` is a selected edge variable of the program. -/
def Selected (x : ℕ → ℕ → Bool) (n i j : ℕ) : Prop :=
  i < j ∧ j < n ∧ x i j = true

/-- flow and boundary constraints of the integer program: for every interior
position `p` (`for i in range(1, train_size - 1)`) inbound and outbound
degrees are at most one and equal, exactly one pair leaves position `0`
(`solver.Sum(x[0, 1:]) == 1`) and exactly one pair enters position `n - 1`
(`solver.Sum(x[0: -1, -1]) == 1`). -/
def FlowFeasible (x : ℕ → ℕ → Bool) (n : ℕ) : Prop :=
  (∀ p ∈ List.range' 1 (n - 2),
      indeg x p ≤ 1 ∧ outdeg x n p ≤ 1 ∧ indeg x p = outdeg x n p) ∧
  outdeg x n 0 = 1 ∧ indeg x (n - 1) = 1

instance (x : ℕ → ℕ → Bool) (n : ℕ) : Decidable (FlowFeasible x n) := by
  unfold FlowFeasible; infer_instance

/-- total number of selected pairs, the value of `solver.Sum(x.flatten())`
(entries with `j ≤ i` are the literal integer `0` in the source). -/
def numSelected (x : ℕ → ℕ → Bool) (n : ℕ) : ℕ :=
  ((List.range n).map (fun i => outdeg x n i)).sum

/-- cardinality constraints of the program:
`min_num_bins = 5 ≤ Sum(x.flatten()) ≤ max_num_bins = 25`. -/
def CardFeasible (x : ℕ → ℕ → Bool) (n : ℕ) : Prop :=
  5 ≤ numSelected x n ∧ numSelected x n ≤ 25

instance (x : ℕ → ℕ → Bool) (n : ℕ) : Decidable (CardFeasible x n) := by
  unfold CardFeasible; infer_instance

/-- first selected successor of position `p`, scanning `j` upward as the
source's inner loop does. -/
def nextNode (x : ℕ → ℕ → Bool) (n p : ℕ) : Option ℕ :=
  (List.range n).find? (edgePred x p)

/-- chain of positions obtained by starting at `p` and repeatedly following
the selected successor, with explicit fuel. -/
def chainFrom (x : ℕ → ℕ → Bool) (n : ℕ) : ℕ → ℕ → List ℕ
  | p, 0 => [p]
  | p, fuel + 1 =>
    match nextNode x n p with
    | none => [p]
    | some q => p :: chainFrom x n q fuel

/-- concatenation of `f i` over a list of row indices, the shape of the
source's nested `for i ... for j ...` collection loops. -/
def catMaps {α : Type} (f : ℕ → List α) : List ℕ → List α
  | [] => []
  | i :: t => f i ++ catMaps f t

/-- selected pairs `(i, j)` in row-major scan order, as visited by
`for i in range(train_size): for j in range(train_size): if j > i and x[i, j] = 1`. -/
def selPairs (x : ℕ → ℕ → Bool) (n : ℕ) : List (ℕ × ℕ) :=
  catMaps (fun i => ((List.range n).filter (edgePred x i)).map (fun j => (i, j))) (List.range n)

/-- edge values collected by the extraction loop: `final_bin_edges.append(i + 300)`
once per selected pair, in scan order. -/
def extractList (x : ℕ → ℕ → Bool) (n : ℕ) : List ℕ :=
  catMaps (fun i => ((List.range n).filter (edgePred x i)).map (fun _ => i + 300)) (List.range n)

/-- extracted edge sequence of a successful solve: the collected values
followed by the unconditional `final_bin_edges.append(max_edge)`. -/
def extractEdges (x : ℕ → ℕ → Bool) (n : ℕ) : List ℕ :=
  extractList x n ++ [850]

/-- Modelled from the spec: the reference edge list of §4.4,
`edges = [min_edge] + [j + min_edge for each selected j in order]`. -/
def specEdges (x : ℕ → ℕ → Bool) (n : ℕ) : List ℕ :=
  300 :: (selPairs x n).map (fun p => p.2 + 300)

/-- membership of a selected pair is stated on a single simple path:
a strictly increasing position list starting at `0`, ending at `n - 1`,
whose consecutive pairs are exactly the selected pairs. -/
def IsSinglePath (x : ℕ → ℕ → Bool) (n : ℕ) : Prop :=
  ∃ l : List ℕ, List.Chain' (· < ·) l ∧ l.head? = some 0 ∧
    l.getLast? = some (n - 1) ∧
    ∀ i j, Selected x n i j ↔ (i, j) ∈ l.zip l.tail

/-- interval mass `percent_days_train[d, i, j] = np.sum(hist[i: j])`. -/
def percentMat (h : ℕ → ℚ) (i j : ℕ) : ℚ :=
  ((List.range' i (j - i)).map h).sum

/-- per-transition PSI matrix entry,
`(percent[t] - percent[t - 1]) * log((percent[t] + eps) / (percent[t - 1] + eps))`
where `h1` is day `t` and `h0` is day `t - 1`. -/
def psiMatrixOf (lg : ℚ → ℚ) (eps : ℚ) (h1 h0 : ℕ → ℚ) (i j : ℕ) : ℚ :=
  (percentMat h1 i j - percentMat h0 i j) *
    lg ((percentMat h1 i j + eps) / (percentMat h0 i j + eps))

/-- consecutive-day pairs `(X[i], X[i + 1])` for `i in range(num_days - 1)`. -/
def transList {α : Type} (X : List α) : List (α × α) :=
  X.zip X.tail

/-- per-transition PSI matrices `psi_train` of the source. -/
def psiMatrices (lg : ℚ → ℚ) (eps : ℚ) (X : List (ℕ → ℚ)) : List (ℕ → ℕ → ℚ) :=
  (transList X).map (fun t => psiMatrixOf lg eps t.2 t.1)

/-- per-class PSI aggregation: boolean-mask selection of the transition
matrices, entrywise sum, division by the class count
(`psi_c = psi_train[mask].sum(axis=0) / count`).  When the count is zero
numpy performs the division anyway and fills the matrix with NaN, raising
only a runtime warning; the embedding returns `none` for that silently
produced NaN matrix — the source has no error channel here. -/
def classPsiAgg (psis : List (ℕ → ℕ → ℚ)) (mask : List Bool) : Option (ℕ → ℕ → ℚ) :=
  let k := (mask.filter (fun b => b)).length
  if k = 0 then none
  else some (fun i j =>
    ((((psis.zip mask).filter (fun p => p.2)).map (fun p => p.1)).map (fun m => m i j)).sum / k)

/-- per-bin masses of one histogram row for a given edge list:
`np.sum(X[i, edges[j] - 300 : edges[j + 1] - 300])` for each consecutive
edge pair. -/
def binSums (h : ℕ → ℚ) (edges : List ℕ) : List ℚ :=
  (edges.zip edges.tail).map
    (fun e => ((List.range' (e.1 - 300) ((e.2 - 300) - (e.1 - 300))).map h).sum)

/-- aggregated-bin PSI between two consecutive days:
`psi = np.sum((hist_1 - hist_2) * np.log((hist_1 + eps) / (hist_2 + eps)))`. -/
def transPsi (lg : ℚ → ℚ) (eps : ℚ) (edges : List ℕ) (h1 h2 : ℕ → ℚ) : ℚ :=
  (((binSums h1 edges).zip (binSums h2 edges)).map
    (fun b => (b.1 - b.2) * lg ((b.1 + eps) / (b.2 + eps)))).sum

/-- baseline classification rule of the source:
`y_pred = y if (y == 0 and psi < t) or (y == 1 and psi >= t) else 1 - y`. -/
def predRule (psi t : ℚ) (y : Fin 2) : Fin 2 :=
  if (y = 0 ∧ psi < t) ∨ (y = 1 ∧ t ≤ psi) then y else 1 - y

/-- Modelled from the spec: the pure rule of §9 that predicts `1`
if and only if `psi ≥ threshold`, independent of the true label. -/
def pureRule (psi t : ℚ) : Fin 2 :=
  if t ≤ psi then 1 else 0

/-- predicted transition labels of a dataset at threshold `t`. -/
def predsAt (lg : ℚ → ℚ) (eps : ℚ) (edges : List ℕ) (X : List (ℕ → ℚ))
    (y : List (Fin 2)) (t : ℚ) : List (Fin 2) :=
  ((transList X).zip y).map
    (fun p => predRule (transPsi lg eps edges p.1.1 p.1.2) t p.2)

/-- occurrences of label `c` in a label list (`supports`, and the counts
`np.sum(y)` / `np.sum(1 - y)` of the source). -/
def countLabel (l : List (Fin 2)) (c : Fin 2) : ℕ :=
  (l.filter (fun v => v == c)).length

/-- true positives of class `c`. -/
def tpCount (yt yp : List (Fin 2)) (c : Fin 2) : ℕ :=
  ((yt.zip yp).filter (fun p => p.1 == c && p.2 == c)).length

/-- per-class precision as computed by sklearn with its zero-division
default of `0`. -/
def precisionOf (yt yp : List (Fin 2)) (c : Fin 2) : ℚ :=
  if countLabel yp c = 0 then 0 else (tpCount yt yp c : ℚ) / (countLabel yp c : ℚ)

/-- per-class recall as computed by sklearn with its zero-division
default of `0`. -/
def recallOf (yt yp : List (Fin 2)) (c : Fin 2) : ℚ :=
  if countLabel yt c = 0 then 0 else (tpCount yt yp c : ℚ) / (countLabel yt c : ℚ)

/-- per-class F-beta score, `(1 + b²)·p·r / (b²·p + r)`, `0` on a zero
denominator, as computed by sklearn. -/
def fbetaOf (b : ℚ) (yt yp : List (Fin 2)) (c : Fin 2) : ℚ :=
  let p := precisionOf yt yp c
  let r := recallOf yt yp c
  if b ^ 2 * p + r = 0 then 0 else (1 + b ^ 2) * p * r / (b ^ 2 * p + r)

/-- labels sklearn reports on: the sorted union of the labels occurring in
`y_true` and `y_pred` (binary labels here). -/
def labelsPresent (yt yp : List (Fin 2)) : List (Fin 2) :=
  (if 0 ∈ yt ∨ 0 ∈ yp then [0] else []) ++ (if 1 ∈ yt ∨ 1 ∈ yp then [1] else [])

/-- round-half-even of a rational to an integer, the rounding Python's
`round` applies. -/
def roundHalfEven (q : ℚ) : ℤ :=
  let f := ⌊q⌋
  let r := q - (f : ℚ)
  if r < 1 / 2 then f else if 1 / 2 < r then f + 1 else if f % 2 = 0 then f else f + 1

/-- Python's `round(q, 4)`. -/
def pyRound4 (q : ℚ) : ℚ :=
  ((roundHalfEven (q * 10000) : ℤ) : ℚ) / 10000

/-- the custom metric `precision_0_recall_1_inverse_weighted_fbeta`:
per-class precision/recall/F-beta over the labels sklearn reports on,
then `ratio_0, ratio_1 = supports / sum(supports)` — an unpacking that
raises unless exactly two labels are present — and the inverse-weighted
score `fbeta[0]·ratio_1 + fbeta[1]·ratio_0`, all rounded to 4 digits. -/
def invWeightedFbeta (b : ℚ) (yt yp : List (Fin 2)) : Except String (ℚ × ℚ × ℚ) :=
  match labelsPresent yt yp with
  | [a, c] =>
    let total : ℚ := (countLabel yt a : ℚ) + (countLabel yt c : ℚ)
    .ok (pyRound4 (precisionOf yt yp a), pyRound4 (recallOf yt yp c),
      pyRound4 (fbetaOf b yt yp a * ((countLabel yt c : ℚ) / total) +
        fbetaOf b yt yp c * ((countLabel yt a : ℚ) / total)))
  | _ => .error "cannot unpack supports into two class ratios"

/-- sklearn's `accuracy_score`. -/
def accuracy (yt yp : List (Fin 2)) : ℚ :=
  (((yt.zip yp).filter (fun p => p.1 == p.2)).length : ℚ) / (yt.length : ℚ)

/-- state of the training threshold sweep: the retained threshold, metrics,
predictions and accuracy (`best_train_threshold`, `best_train_precision_0`,
`best_train_recall_1`, `best_train_inverse_weighted_f2`,
`best_y_train_pred`, `train_acc`). -/
structure SweepState where
  bestThreshold : ℚ
  bestP0 : ℚ
  bestR1 : ℚ
  bestF2 : ℚ
  bestPred : List (Fin 2)
  accTrain : ℚ
deriving DecidableEq, Repr

/-- initial sweep state of the source: every scalar `0` and
`best_y_train_pred = [0] * (num_days_train - 1)`. -/
def initState (numTrans : ℕ) : SweepState :=
  ⟨0, 0, 0, 0, List.replicate numTrans 0, 0⟩

/-- the custom metric evaluated on the predictions at threshold `t`. -/
def metricAt (lg : ℚ → ℚ) (eps : ℚ) (edges : List ℕ) (X : List (ℕ → ℚ))
    (y : List (Fin 2)) (t : ℚ) : Except String (ℚ × ℚ × ℚ) :=
  invWeightedFbeta 2 y (predsAt lg eps edges X y t)

/-- one iteration of the sweep: score threshold `t` and update the state
when `train_inverse_weighted_f2 > best_train_inverse_weighted_f2`
(accuracy is recomputed only on update, as in the source). -/
def sweepStep (lg : ℚ → ℚ) (eps : ℚ) (edges : List ℕ) (X : List (ℕ → ℚ))
    (y : List (Fin 2)) (st : SweepState) (t : ℚ) : Except String SweepState :=
  match metricAt lg eps edges X y t with
  | .error e => .error e
  | .ok (p0, r1, f2) =>
    if st.bestF2 < f2 then
      .ok ⟨t, p0, r1, f2, predsAt lg eps edges X y t, accuracy y (predsAt lg eps edges X y t)⟩
    else .ok st

/-- the training threshold sweep, `for threshold in thresholds: ...`. -/
def trainSweep (lg : ℚ → ℚ) (eps : ℚ) (edges : List ℕ) (X : List (ℕ → ℚ))
    (y : List (Fin 2)) : List ℚ → SweepState → Except String SweepState
  | [], st => .ok st
  | t :: rest, st =>
    match sweepStep lg eps edges X y st t with
    | .error e => .error e
    | .ok st2 => trainSweep lg eps edges X y rest st2

/-- consistency of a sweep state with the metrics actually computed at its
retained threshold. -/
def ConsistentAt (lg : ℚ → ℚ) (eps : ℚ) (edges : List ℕ) (X : List (ℕ → ℚ))
    (y : List (Fin 2)) (st : SweepState) : Prop :=
  metricAt lg eps edges X y st.bestThreshold = .ok (st.bestP0, st.bestR1, st.bestF2) ∧
  st.bestPred = predsAt lg eps edges X y st.bestThreshold ∧
  st.accTrain = accuracy y st.bestPred

/-- MILP solver status values of the backend. -/
inductive MipStatus
  | optimal
  | feasible
  | infeasible
  | unbounded
  | abnormal
  | notSolved
deriving DecidableEq, Repr

/-- the source's acceptance test
`status == pywraplp.Solver.OPTIMAL or status == pywraplp.Solver.FEASIBLE`. -/
def statusAccepted (s : MipStatus) : Bool :=
  decide (s = .optimal) || decide (s = .feasible)

/-- `final_bin_edges` as left by the status branch: the extracted edges on
success, the untouched empty list otherwise (the `else` branch only
prints `'No solution found.'`). -/
def finalBinEdges (s : MipStatus) (x : ℕ → ℕ → Bool) : List ℕ :=
  if statusAccepted s then extractEdges x trainSize else []

/-- `final_num_bin = len(final_bin_edges) - 1`, a Python integer that can
be negative. -/
def finalNumBin (s : MipStatus) (x : ℕ → ℕ → Bool) : ℤ :=
  (finalBinEdges s x).length - 1

/-- division whose zero-denominator case is numpy's silently produced NaN
(`none`); in the source this is `psi_c_test / np.sum(...)` with a zero
class count. -/
def divNan (a b : ℚ) : Option ℚ :=
  if b = 0 then none else some (a / b)

/-- record built by the per-test-set evaluation block. -/
structure TestEval where
  obj0 : Option ℚ
  obj1 : Option ℚ
  totalObj : Option ℚ
  acc : ℚ
  p0 : ℚ
  r1 : ℚ
  f2 : ℚ
deriving DecidableEq, Repr

/-- the per-test-set evaluation: per-transition PSI values, class-wise PSI
accumulation and normalization, predictions at the retained threshold,
then `accuracy_score` and the custom metric (whose unpacking can raise). -/
def evalTest (lg : ℚ → ℚ) (eps a : ℚ) (edges : List ℕ) (X : List (ℕ → ℚ))
    (y : List (Fin 2)) (t : ℚ) : Except String TestEval :=
  let psis := (transList X).map (fun p => transPsi lg eps edges p.1 p.2)
  let py := psis.zip y
  let yp := py.map (fun p => predRule p.1 t p.2)
  let s0 := ((py.filter (fun p => p.2 == 0)).map (fun p => p.1)).sum
  let s1 := ((py.filter (fun p => p.2 == 1)).map (fun p => p.1)).sum
  let o0 := divNan s0 (countLabel y 0 : ℚ)
  let o1 := divNan s1 (countLabel y 1 : ℚ)
  let tot := match o1, o0 with
    | some v1, some v0 => some (a * v1 - (1 - a) * v0)
    | _, _ => none
  match invWeightedFbeta 2 y yp with
  | .error e => .error e
  | .ok (q0, q1, qf) => .ok ⟨o0, o1, tot, accuracy y yp, q0, q1, qf⟩

/-- all-zero histogram row, used as a concrete instance. -/
def zf : ℕ → ℚ := fun _ => 0

/-- constant normalized histogram row over the 550 support positions. -/
def cf : ℕ → ℚ := fun _ => 1 / 550

/-- concrete monotone logarithm surrogate with `lg 1 = 0`, used to
instantiate universally quantified statements over the external `np.log`. -/
def lgLin : ℚ → ℚ := fun q => q - 1

/-- concrete feasible assignment at `train_size = 551`: the ten pairs
`(55k, 55(k + 1))` for `k = 0, …, 9`. -/
def xw : ℕ → ℕ → Bool := fun i j => decide (i % 55 = 0) && decide (j = i + 55)

/-- concrete feasible assignment at `n = 3`: pairs `(0, 1)` and `(1, 2)`. -/
def x3 : ℕ → ℕ → Bool := fun i j => decide (j = i + 1)

/-- all-false assignment. -/
def xnone : ℕ → ℕ → Bool := fun _ _ => false

/-- constant histogram row of value `1`, a concrete instance. -/
def g1 : ℕ → ℚ := fun _ => 1

/-- constant histogram row of value `3`, a concrete instance. -/
def g3 : ℕ → ℚ := fun _ => 3

/-- concrete three-day training set. -/
def Xw3 : List (ℕ → ℚ) := [g1, g3, g1]

/-- concrete transition labels for `Xw3`. -/
def yw2 : List (Fin 2) := [0, 1]

/-- sweep state reached on `Xw3`, `yw2` with candidate threshold `3/2`. -/
def stW : SweepState := ⟨3 / 2, 1, 1, 1, [0, 1], 1⟩

/-! ### Helper lemmas -/

theorem pred_eq_pure (psi t : ℚ) (y : Fin 2) : predRule psi t y = pureRule psi t := by
  rcases lt_or_le psi t with h | h
  · have h' : ¬ t ≤ psi := not_le.mpr h
    fin_cases y <;> simp [predRule, pureRule, h, h']
  · have h' : ¬ psi < t := not_lt.mpr h
    fin_cases y <;> simp [predRule, pureRule, h, h']

theorem edgePred_eq_true {x : ℕ → ℕ → Bool} {p j : ℕ} :
    edgePred x p j = true ↔ p < j ∧ x p j = true := by
  simp [edgePred]

theorem nextNode_some {x : ℕ → ℕ → Bool} {n p q : ℕ} (h : nextNode x n p = some q) :
    Selected x n p q := by
  have h1 := List.find?_some h
  have h2 := List.mem_of_find?_eq_some h
  rw [List.mem_range] at h2
  rw [edgePred_eq_true] at h1
  exact ⟨h1.1, h2, h1.2⟩

theorem nextNode_none {x : ℕ → ℕ → Bool} {n p : ℕ} (h : nextNode x n p = none) (j : ℕ) :
    ¬ Selected x n p j := by
  rintro ⟨hij, hjn, hx⟩
  have hn := List.find?_eq_none.mp h j (List.mem_range.mpr hjn)
  rw [edgePred_eq_true] at hn
  exact hn ⟨hij, hx⟩

theorem selected_mem_filter {x : ℕ → ℕ → Bool} {n p j : ℕ} (h : Selected x n p j) :
    j ∈ (List.range n).filter (edgePred x p) := by
  rw [List.mem_filter, List.mem_range, edgePred_eq_true]
  exact ⟨h.2.1, h.1, h.2.2⟩

theorem outdeg_pos {x : ℕ → ℕ → Bool} {n p j : ℕ} (h : Selected x n p j) :
    0 < outdeg x n p :=
  List.length_pos.mpr (List.ne_nil_of_mem (selected_mem_filter h))

theorem indeg_pos {x : ℕ → ℕ → Bool} {n i p : ℕ} (h : Selected x n i p) :
    0 < indeg x p := by
  have hm : i ∈ (List.range p).filter (fun i => x i p) := by
    rw [List.mem_filter, List.mem_range]
    exact ⟨h.1, h.2.2⟩
  exact List.length_pos.mpr (List.ne_nil_of_mem hm)

theorem exists_of_indeg_pos {x : ℕ → ℕ → Bool} {p : ℕ} (h : 0 < indeg x p) :
    ∃ i, i < p ∧ x i p = true := by
  rcases List.exists_mem_of_length_pos h with ⟨i, hi⟩
  rw [List.mem_filter, List.mem_range] at hi
  exact ⟨i, hi.1, hi.2⟩

theorem mem_eq_of_length_le_one {α : Type} :
    ∀ {l : List α}, l.length ≤ 1 → ∀ {a b : α}, a ∈ l → b ∈ l → a = b
  | [], _, _, _, ha, _ => absurd ha (List.not_mem_nil _)
  | [c], _, a, b, ha, hb => by
      rw [List.mem_singleton] at ha hb
      rw [ha, hb]
  | _ :: _ :: _, h, _, _, _, _ => by simp at h

theorem selected_unique {x : ℕ → ℕ → Bool} {n p : ℕ} (hle : outdeg x n p ≤ 1) {j j' : ℕ}
    (h : Selected x n p j) (h' : Selected x n p j') : j = j' :=
  mem_eq_of_length_le_one hle (selected_mem_filter h) (selected_mem_filter h')

theorem nextNode_eq_some {x : ℕ → ℕ → Bool} {n p j : ℕ} (hle : outdeg x n p ≤ 1)
    (h : Selected x n p j) : nextNode x n p = some j := by
  cases hq : nextNode x n p with
  | none => exact absurd h (nextNode_none hq j)
  | some q => rw [selected_unique hle (nextNode_some hq) h]

theorem interior_flow {x : ℕ → ℕ → Bool} {n : ℕ} (hf : FlowFeasible x n) {p : ℕ}
    (h1 : 1 ≤ p) (h2 : p ≤ n - 2) :
    indeg x p ≤ 1 ∧ outdeg x n p ≤ 1 ∧ indeg x p = outdeg x n p :=
  hf.1 p (by rw [List.mem_range'_1]; omega)

theorem outdeg_le_one {x : ℕ → ℕ → Bool} {n : ℕ} (hf : FlowFeasible x n) {p j : ℕ}
    (h : Selected x n p j) : outdeg x n p ≤ 1 := by
  rcases Nat.eq_zero_or_pos p with rfl | hp
  · rw [hf.2.1]
  · have h1 := h.1
    have h2 := h.2.1
    exact (interior_flow hf hp (by omega)).2.1

theorem chainFrom_zero {x : ℕ → ℕ → Bool} {n p : ℕ} : chainFrom x n p 0 = [p] := rfl

theorem chainFrom_succ_none {x : ℕ → ℕ → Bool} {n p fuel : ℕ} (h : nextNode x n p = none) :
    chainFrom x n p (fuel + 1) = [p] := by
  simp [chainFrom, h]

theorem chainFrom_succ_some {x : ℕ → ℕ → Bool} {n p q fuel : ℕ} (h : nextNode x n p = some q) :
    chainFrom x n p (fuel + 1) = p :: chainFrom x n q fuel := by
  simp [chainFrom, h]

theorem chainFrom_cons (x : ℕ → ℕ → Bool) (n : ℕ) :
    ∀ fuel p, ∃ t, chainFrom x n p fuel = p :: t := by
  intro fuel p
  cases fuel with
  | zero => exact ⟨[], rfl⟩
  | succ fuel =>
    cases hq : nextNode x n p with
    | none => exact ⟨[], chainFrom_succ_none hq⟩
    | some q => exact ⟨chainFrom x n q fuel, chainFrom_succ_some hq⟩

theorem chainFrom_ne_nil (x : ℕ → ℕ → Bool) (n fuel p : ℕ) : chainFrom x n p fuel ≠ [] := by
  obtain ⟨t, ht⟩ := chainFrom_cons x n fuel p
  rw [ht]
  exact List.cons_ne_nil p t

theorem chainFrom_head (x : ℕ → ℕ → Bool) (n fuel p : ℕ) :
    (chainFrom x n p fuel).head? = some p := by
  obtain ⟨t, ht⟩ := chainFrom_cons x n fuel p
  rw [ht]
  rfl

theorem chainFrom_start_mem (x : ℕ → ℕ → Bool) (n fuel p : ℕ) :
    p ∈ chainFrom x n p fuel := by
  obtain ⟨t, ht⟩ := chainFrom_cons x n fuel p
  rw [ht]
  exact List.mem_cons_self p t

theorem chainFrom_chain (x : ℕ → ℕ → Bool) (n : ℕ) :
    ∀ fuel p a, a < p → List.Chain (· < ·) a (chainFrom x n p fuel) := by
  intro fuel
  induction fuel with
  | zero => exact fun p a h => List.Chain.cons h List.Chain.nil
  | succ fuel ih =>
    intro p a h
    cases hq : nextNode x n p with
    | none =>
      rw [chainFrom_succ_none hq]
      exact List.Chain.cons h List.Chain.nil
    | some q =>
      rw [chainFrom_succ_some hq]
      exact List.Chain.cons h (ih q p (nextNode_some hq).1)

theorem chainFrom_chain' (x : ℕ → ℕ → Bool) (n fuel p : ℕ) :
    List.Chain' (· < ·) (chainFrom x n p fuel) := by
  cases fuel with
  | zero => exact List.chain'_singleton p
  | succ fuel =>
    cases hq : nextNode x n p with
    | none =>
      rw [chainFrom_succ_none hq]
      exact List.chain'_singleton p
    | some q =>
      rw [chainFrom_succ_some hq]
      exact chainFrom_chain x n fuel q p (nextNode_some hq).1

theorem chainFrom_mem_cases (x : ℕ → ℕ → Bool) (n : ℕ) :
    ∀ fuel p a, a ∈ chainFrom x n p fuel → a = p ∨ a < n := by
  intro fuel
  induction fuel with
  | zero =>
    intro p a ha
    rw [chainFrom_zero, List.mem_singleton] at ha
    exact Or.inl ha
  | succ fuel ih =>
    intro p a ha
    cases hq : nextNode x n p with
    | none =>
      rw [chainFrom_succ_none hq, List.mem_singleton] at ha
      exact Or.inl ha
    | some q =>
      rw [chainFrom_succ_some hq] at ha
      rcases List.mem_cons.mp ha with rfl | ha'
      · exact Or.inl rfl
      · rcases ih q a ha' with rfl | h
        · exact Or.inr (nextNode_some hq).2.1
        · exact Or.inr h

theorem chainFrom_getLast_none (x : ℕ → ℕ → Bool) (n : ℕ) :
    ∀ fuel p, n ≤ p + fuel →
      ∃ z, (chainFrom x n p fuel).getLast? = some z ∧ nextNode x n z = none := by
  intro fuel
  induction fuel with
  | zero =>
    intro p hn
    cases hq : nextNode x n p with
    | none => exact ⟨p, rfl, hq⟩
    | some q =>
      have hs := nextNode_some hq
      have h1 := hs.1
      have h2 := hs.2.1
      omega
  | succ fuel ih =>
    intro p hn
    cases hq : nextNode x n p with
    | none => exact ⟨p, by rw [chainFrom_succ_none hq]; rfl, hq⟩
    | some q =>
      have hs := nextNode_some hq
      have hs1 := hs.1
      have hs2 := hs.2.1
      obtain ⟨z, hz, hnone⟩ := ih q (by omega)
      refine ⟨z, ?_, hnone⟩
      rw [chainFrom_succ_some hq]
      obtain ⟨t, ht⟩ := chainFrom_cons x n fuel q
      rw [ht] at hz ⊢
      rw [List.getLast?_cons_cons]
      exact hz

theorem chainFrom_zip_selected (x : ℕ → ℕ → Bool) (n : ℕ) :
    ∀ fuel p a b,
      (a, b) ∈ (chainFrom x n p fuel).zip (chainFrom x n p fuel).tail →
      Selected x n a b := by
  intro fuel
  induction fuel with
  | zero =>
    intro p a b h
    rw [chainFrom_zero] at h
    simp [List.zip] at h
  | succ fuel ih =>
    intro p a b h
    cases hq : nextNode x n p with
    | none =>
      rw [chainFrom_succ_none hq] at h
      simp [List.zip] at h
    | some q =>
      rw [chainFrom_succ_some hq] at h
      obtain ⟨t, ht⟩ := chainFrom_cons x n fuel q
      rw [ht] at h
      rw [List.tail_cons, List.zip_cons_cons] at h
      rcases List.mem_cons.mp h with heq | h'
      · have h1 : a = p := congrArg Prod.fst heq
        have h2 : b = q := congrArg Prod.snd heq
        rw [h1, h2]
        exact nextNode_some hq
      · apply ih q a b
        rw [ht, List.tail_cons]
        exact h'

theorem chainFrom_pair_of_mem (x : ℕ → ℕ → Bool) (n : ℕ) :
    ∀ fuel p0, n ≤ p0 + fuel → ∀ p ∈ chainFrom x n p0 fuel, ∀ q, nextNode x n p = some q →
      (p, q) ∈ (chainFrom x n p0 fuel).zip (chainFrom x n p0 fuel).tail := by
  intro fuel
  induction fuel with
  | zero =>
    intro p0 hn p hp q hq
    rw [chainFrom_zero, List.mem_singleton] at hp
    subst hp
    have hs := nextNode_some hq
    have h1 := hs.1
    have h2 := hs.2.1
    omega
  | succ fuel ih =>
    intro p0 hn p hp q hq
    cases h0 : nextNode x n p0 with
    | none =>
      rw [chainFrom_succ_none h0, List.mem_singleton] at hp
      subst hp
      rw [h0] at hq
      cases hq
    | some q0 =>
      rw [chainFrom_succ_some h0] at hp ⊢
      obtain ⟨t, ht⟩ := chainFrom_cons x n fuel q0
      rcases List.mem_cons.mp hp with rfl | hp'
      · rw [h0] at hq
        injection hq with hq
        subst hq
        rw [ht, List.tail_cons, List.zip_cons_cons]
        exact List.mem_cons_self _ _
      · have hq0 := nextNode_some h0
        have hq01 := hq0.1
        have hq02 := hq0.2.1
        have hmem := ih q0 (by omega) p hp' q hq
        rw [ht, List.tail_cons, List.zip_cons_cons]
        rw [ht, List.tail_cons] at hmem
        exact List.mem_cons_of_mem _ hmem

theorem chainFrom_mem_start_or_pair (x : ℕ → ℕ → Bool) (n : ℕ) :
    ∀ fuel p0 b, b ∈ chainFrom x n p0 fuel →
      b = p0 ∨ ∃ a, (a, b) ∈ (chainFrom x n p0 fuel).zip (chainFrom x n p0 fuel).tail := by
  intro fuel
  induction fuel with
  | zero =>
    intro p0 b hb
    rw [chainFrom_zero, List.mem_singleton] at hb
    exact Or.inl hb
  | succ fuel ih =>
    intro p0 b hb
    cases hq : nextNode x n p0 with
    | none =>
      rw [chainFrom_succ_none hq, List.mem_singleton] at hb
      exact Or.inl hb
    | some q =>
      rw [chainFrom_succ_some hq] at hb ⊢
      obtain ⟨t, ht⟩ := chainFrom_cons x n fuel q
      rcases List.mem_cons.mp hb with rfl | hb'
      · exact Or.inl rfl
      · rcases ih q b hb' with rfl | ⟨a, ha⟩
        · refine Or.inr ⟨p0, ?_⟩
          rw [ht, List.tail_cons, List.zip_cons_cons]
          exact List.mem_cons_self _ _
        · refine Or.inr ⟨a, ?_⟩
          rw [ht, List.tail_cons, List.zip_cons_cons]
          rw [ht, List.tail_cons] at ha
          exact List.mem_cons_of_mem _ ha

theorem selected_start_mem_chain {x : ℕ → ℕ → Bool} {n : ℕ} (hf : FlowFeasible x n) :
    ∀ i, (∃ j, Selected x n i j) → i ∈ chainFrom x n 0 n := by
  intro i
  induction i using Nat.strong_induction_on with
  | _ i ih =>
    rintro ⟨j, hj⟩
    rcases Nat.eq_zero_or_pos i with rfl | hi
    · exact chainFrom_start_mem x n n 0
    · have hj1 := hj.1
      have hj2 := hj.2.1
      have hint := interior_flow hf hi (by omega)
      have hout : 0 < outdeg x n i := outdeg_pos hj
      have hin : 0 < indeg x i := by rw [hint.2.2]; exact hout
      obtain ⟨h, hhi, hx⟩ := exists_of_indeg_pos hin
      have hsel : Selected x n h i := ⟨hhi, by omega, hx⟩
      have hmem := ih h hhi ⟨i, hsel⟩
      have hle := outdeg_le_one hf hsel
      have hnext := nextNode_eq_some hle hsel
      have hpair := chainFrom_pair_of_mem x n n 0 (by omega) h hmem i hnext
      exact List.mem_of_mem_tail (List.of_mem_zip hpair).2

theorem chainFrom_last_eq {x : ℕ → ℕ → Bool} {n : ℕ} (hn : 2 ≤ n)
    (hf : FlowFeasible x n) : (chainFrom x n 0 n).getLast? = some (n - 1) := by
  obtain ⟨z, hz, hnone⟩ := chainFrom_getLast_none x n n 0 (by omega)
  have hzmem : z ∈ chainFrom x n 0 n := by
    obtain ⟨hne, heq⟩ := List.mem_getLast?_eq_getLast hz
    rw [heq]
    exact List.getLast_mem hne
  have hzout : outdeg x n z = 0 := by
    unfold outdeg
    rw [List.length_eq_zero, List.filter_eq_nil_iff]
    exact List.find?_eq_none.mp hnone
  have hzlt : z < n := by
    rcases chainFrom_mem_cases x n n 0 z hzmem with rfl | h
    · omega
    · exact h
  rcases Nat.eq_zero_or_pos z with rfl | hz1
  · rw [hf.2.1] at hzout
    cases hzout
  · by_cases hzi : z ≤ n - 2
    · have hint := interior_flow hf hz1 hzi
      have hin0 : indeg x z = 0 := by rw [hint.2.2, hzout]
      rcases chainFrom_mem_start_or_pair x n n 0 z hzmem with rfl | ⟨a, hpair⟩
      · omega
      · have hsel := chainFrom_zip_selected x n n 0 a z hpair
        have := indeg_pos hsel
        omega
    · have hzeq : z = n - 1 := by omega
      rw [hz, hzeq]

theorem selected_iff_chain_pair {x : ℕ → ℕ → Bool} {n : ℕ} (hf : FlowFeasible x n)
    (i j : ℕ) :
    Selected x n i j ↔ (i, j) ∈ (chainFrom x n 0 n).zip (chainFrom x n 0 n).tail := by
  constructor
  · intro hs
    have hmem := selected_start_mem_chain hf i ⟨j, hs⟩
    have hle := outdeg_le_one hf hs
    have hnext := nextNode_eq_some hle hs
    exact chainFrom_pair_of_mem x n n 0 (by omega) i hmem j hnext
  · exact chainFrom_zip_selected x n n 0 i j

theorem flow_single_path (x : ℕ → ℕ → Bool) (n : ℕ) (hn : 2 ≤ n)
    (hf : FlowFeasible x n) : IsSinglePath x n :=
  ⟨chainFrom x n 0 n, chainFrom_chain' x n n 0, chainFrom_head x n n 0,
    chainFrom_last_eq hn hf, selected_iff_chain_pair hf⟩

theorem pairwise_of_length_le_one {α : Type} {R : α → α → Prop} :
    ∀ {l : List α}, l.length ≤ 1 → l.Pairwise R
  | [], _ => List.Pairwise.nil
  | [a], _ => List.pairwise_singleton R a
  | _ :: _ :: _, h => by simp at h

theorem mem_catMaps {α : Type} (f : ℕ → List α) (l : List ℕ) (a : α) :
    a ∈ catMaps f l ↔ ∃ i ∈ l, a ∈ f i := by
  induction l with
  | nil => simp [catMaps]
  | cons i t ih => simp [catMaps, List.mem_append, ih]

theorem length_catMaps {α : Type} (f : ℕ → List α) :
    ∀ l : List ℕ, (catMaps f l).length = (l.map fun i => (f i).length).sum := by
  intro l
  induction l with
  | nil => rfl
  | cons i t ih => simp [catMaps, ih]

theorem pairwise_catMaps {α : Type} (f : ℕ → List α) (R : α → α → Prop) (P : ℕ → α → Prop)
    (hcross : ∀ i i', i < i' → ∀ a b, P i a → P i' b → R a b) :
    ∀ l : List ℕ, l.Pairwise (· < ·) →
      (∀ i ∈ l, ∀ a ∈ f i, P i a) →
      (∀ i ∈ l, (f i).length ≤ 1) →
      (catMaps f l).Pairwise R := by
  intro l
  induction l with
  | nil => intro _ _ _; exact List.Pairwise.nil
  | cons i t ih =>
    intro hp hval hlen
    show (f i ++ catMaps f t).Pairwise R
    rw [List.pairwise_append]
    refine ⟨pairwise_of_length_le_one (hlen i (List.mem_cons_self i t)), ?_, ?_⟩
    · exact ih hp.of_cons (fun i' hi' => hval i' (List.mem_cons_of_mem i hi'))
        (fun i' hi' => hlen i' (List.mem_cons_of_mem i hi'))
    · intro a ha b hb
      obtain ⟨i', hi', hbi'⟩ := (mem_catMaps f t b).mp hb
      exact hcross i i' (List.rel_of_pairwise_cons hp hi') a b
        (hval i (List.mem_cons_self i t) a ha)
        (hval i' (List.mem_cons_of_mem i hi') b hbi')

theorem head_catMaps_of_ne_nil {α : Type} (f : ℕ → List α) (l : List ℕ) (i : ℕ) (t : List ℕ)
    (hl : l = i :: t) (hne : f i ≠ []) : (catMaps f l).head? = (f i).head? := by
  subst hl
  show (f i ++ catMaps f t).head? = (f i).head?
  rcases hfi : f i with _ | ⟨a, r⟩
  · exact absurd hfi hne
  · rfl

theorem length_filter_eq_one {l : List ℕ} {p : ℕ → Bool} (hl : l.Nodup) {a : ℕ}
    (ha : a ∈ l) (hpa : p a = true) (huniq : ∀ b ∈ l, p b = true → b = a) :
    (l.filter p).length = 1 := by
  have hmem : a ∈ l.filter p := List.mem_filter.mpr ⟨ha, hpa⟩
  have hfl : ∀ b ∈ l.filter p, b = a := fun b hb =>
    huniq b (List.mem_filter.mp hb).1 (List.mem_filter.mp hb).2
  have hnd : (l.filter p).Nodup := hl.filter p
  rcases hf : l.filter p with _ | ⟨c, t⟩
  · rw [hf] at hmem
    exact absurd hmem (List.not_mem_nil a)
  · rw [hf] at hfl hnd
    rcases t with _ | ⟨d, t2⟩
    · rfl
    · have hc := hfl c (List.mem_cons_self _ _)
      have hd := hfl d (List.mem_cons_of_mem _ (List.mem_cons_self _ _))
      have hcd : c = d := hc.trans hd.symm
      subst hcd
      rw [List.nodup_cons] at hnd
      exact absurd (List.mem_cons_self c t2) hnd.1

theorem length_filter_eq_zero {l : List ℕ} {p : ℕ → Bool}
    (h : ∀ b ∈ l, ¬ p b = true) : (l.filter p).length = 0 := by
  rw [List.length_eq_zero, List.filter_eq_nil_iff]
  exact h

theorem row_length_le_one {x : ℕ → ℕ → Bool} {n : ℕ} (hf : FlowFeasible x n) (i : ℕ) :
    ((List.range n).filter (edgePred x i)).length ≤ 1 := by
  by_cases hrow : ((List.range n).filter (edgePred x i)).length = 0
  · omega
  · obtain ⟨j, hj⟩ := List.exists_mem_of_length_pos (Nat.pos_of_ne_zero hrow)
    rw [List.mem_filter, List.mem_range, edgePred_eq_true] at hj
    exact outdeg_le_one hf ⟨hj.2.1, hj.1, hj.2.2⟩

theorem row_nonempty_bound {x : ℕ → ℕ → Bool} {n i : ℕ}
    (hne : (List.range n).filter (edgePred x i) ≠ []) : i + 2 ≤ n := by
  obtain ⟨j, hj⟩ := List.exists_mem_of_ne_nil _ hne
  rw [List.mem_filter, List.mem_range, edgePred_eq_true] at hj
  omega

theorem row_zero_singleton {x : ℕ → ℕ → Bool} {n : ℕ} (hf : FlowFeasible x n) :
    ∃ j, (List.range n).filter (edgePred x 0) = [j] := by
  have h1 : outdeg x n 0 = 1 := hf.2.1
  exact List.length_eq_one.mp h1

theorem extractList_pairwise {x : ℕ → ℕ → Bool} {n : ℕ} (hf : FlowFeasible x n) :
    (extractList x n).Pairwise (· < ·) := by
  apply pairwise_catMaps _ _ (fun i a => a = i + 300)
  · intro i i' hii a b ha hb
    omega
  · exact List.pairwise_lt_range n
  · intro i _ a ha
    obtain ⟨j, _, hja⟩ := List.mem_map.mp ha
    exact hja.symm
  · intro i _
    rw [List.length_map]
    exact row_length_le_one hf i

theorem extractList_mem {x : ℕ → ℕ → Bool} {n a : ℕ} (h : a ∈ extractList x n) :
    ∃ i j, Selected x n i j ∧ a = i + 300 := by
  obtain ⟨i, _, hai⟩ := (mem_catMaps _ _ a).mp h
  obtain ⟨j, hj, hja⟩ := List.mem_map.mp hai
  rw [List.mem_filter, List.mem_range, edgePred_eq_true] at hj
  exact ⟨i, j, ⟨hj.2.1, hj.1, hj.2.2⟩, hja.symm⟩

theorem extractList_length (x : ℕ → ℕ → Bool) (n : ℕ) :
    (extractList x n).length = numSelected x n := by
  rw [extractList, length_catMaps, numSelected]
  have hfun : (fun i => (((List.range n).filter (edgePred x i)).map
      (fun _ => i + 300)).length) = fun i => outdeg x n i := by
    funext i
    rw [List.length_map]
    rfl
  rw [hfun]

theorem extractList_head {x : ℕ → ℕ → Bool} {n : ℕ} (hf : FlowFeasible x n) (hn : 1 ≤ n) :
    (extractList x n).head? = some 300 := by
  obtain ⟨j, hj⟩ := row_zero_singleton hf
  obtain ⟨m, rfl⟩ : ∃ m, n = m + 1 := ⟨n - 1, by omega⟩
  have hne : ((List.range (m + 1)).filter (edgePred x 0)).map
      (fun _ => (0 : ℕ) + 300) ≠ [] := by
    rw [hj]
    exact List.cons_ne_nil _ _
  have hh := head_catMaps_of_ne_nil
    (fun i => ((List.range (m + 1)).filter (edgePred x i)).map (fun _ => i + 300))
    (List.range (m + 1)) 0 ((List.range m).map Nat.succ) (List.range_succ_eq_map m) hne
  rw [extractList, hh]
  show (((List.range (m + 1)).filter (edgePred x 0)).map (fun _ => (0 : ℕ) + 300)).head? = some 300
  rw [hj]
  rfl

theorem extractList_lt_850 {x : ℕ → ℕ → Bool} {a : ℕ} (h : a ∈ extractList x trainSize) :
    a < 850 := by
  obtain ⟨i, j, hsel, rfl⟩ := extractList_mem h
  have h1 := hsel.1
  have h2 := hsel.2.1
  have : trainSize = 551 := rfl
  omega

theorem indeg_xw (p : ℕ) : indeg xw p = if p % 55 = 0 ∧ 55 ≤ p then 1 else 0 := by
  by_cases h : p % 55 = 0 ∧ 55 ≤ p
  · rw [if_pos h]
    apply length_filter_eq_one (List.nodup_range p) (a := p - 55)
    · rw [List.mem_range]
      omega
    · simp only [xw, Bool.and_eq_true, decide_eq_true_eq]
      omega
    · intro b hb hxb
      simp only [xw, Bool.and_eq_true, decide_eq_true_eq] at hxb
      omega
  · rw [if_neg h]
    apply length_filter_eq_zero
    intro b hb
    rw [List.mem_range] at hb
    simp only [xw, Bool.and_eq_true, decide_eq_true_eq]
    omega

theorem outdeg_xw (p : ℕ) : outdeg xw 551 p = if p % 55 = 0 ∧ p + 55 ≤ 550 then 1 else 0 := by
  by_cases h : p % 55 = 0 ∧ p + 55 ≤ 550
  · rw [if_pos h]
    apply length_filter_eq_one (List.nodup_range 551) (a := p + 55)
    · rw [List.mem_range]
      omega
    · simp only [edgePred, xw, Bool.and_eq_true, decide_eq_true_eq]
      exact ⟨by omega, h.1, trivial⟩
    · intro b hb hxb
      simp only [edgePred, xw, Bool.and_eq_true, decide_eq_true_eq] at hxb
      omega
  · rw [if_neg h]
    apply length_filter_eq_zero
    intro b hb
    rw [List.mem_range] at hb
    simp only [edgePred, xw, Bool.and_eq_true, decide_eq_true_eq]
    omega

theorem xw_flow : FlowFeasible xw 551 := by
  refine ⟨?_, ?_, ?_⟩
  · intro p hp
    rw [List.mem_range'_1] at hp
    rw [indeg_xw, outdeg_xw]
    split_ifs with h1 h2 <;> omega
  · rw [outdeg_xw]
    norm_num
  · rw [indeg_xw]
    norm_num

theorem numSelected_xw : numSelected xw 551 = 10 := by
  rw [numSelected]
  rw [List.map_congr_left (fun i _ => outdeg_xw i)]
  decide

theorem zip_tail_fst {α : Type} : ∀ l : List α, (l.zip l.tail).map Prod.fst = l.dropLast
  | [] => rfl
  | [_] => rfl
  | a :: b :: t => by
    have ih := zip_tail_fst (b :: t)
    rw [List.tail_cons, List.zip_cons_cons, List.map_cons]
    rw [List.tail_cons] at ih
    rw [ih]
    rfl

theorem zip_tail_snd {α : Type} : ∀ l : List α, (l.zip l.tail).map Prod.snd = l.tail
  | [] => rfl
  | [_] => rfl
  | a :: b :: t => by
    have ih := zip_tail_snd (b :: t)
    rw [List.tail_cons, List.zip_cons_cons, List.map_cons]
    rw [List.tail_cons] at ih
    rw [ih]

theorem eq_of_key_sorted {α : Type} (key : α → ℕ) :
    ∀ l1 l2 : List α, l1.Pairwise (fun a b => key a < key b) →
      l2.Pairwise (fun a b => key a < key b) → (∀ a, a ∈ l1 ↔ a ∈ l2) → l1 = l2 := by
  intro l1
  induction l1 with
  | nil =>
    intro l2 _ _ hmem
    cases l2 with
    | nil => rfl
    | cons b t => exact absurd ((hmem b).mpr (List.mem_cons_self b t)) (List.not_mem_nil b)
  | cons a t1 ih =>
    intro l2 hp1 hp2 hmem
    cases l2 with
    | nil => exact absurd ((hmem a).mp (List.mem_cons_self a t1)) (List.not_mem_nil a)
    | cons b t2 =>
      have hab : a = b := by
        have ha2 : a ∈ b :: t2 := (hmem a).mp (List.mem_cons_self a t1)
        have hb1 : b ∈ a :: t1 := (hmem b).mpr (List.mem_cons_self b t2)
        rcases List.mem_cons.mp ha2 with h | ha2'
        · exact h
        · rcases List.mem_cons.mp hb1 with h | hb1'
          · exact h.symm
          · have h1 := List.rel_of_pairwise_cons hp1 hb1'
            have h2 := List.rel_of_pairwise_cons hp2 ha2'
            omega
      subst hab
      have htail : ∀ c, c ∈ t1 ↔ c ∈ t2 := by
        intro c
        constructor
        · intro hc
          have hcm := (hmem c).mp (List.mem_cons_of_mem a hc)
          rcases List.mem_cons.mp hcm with heq | h
          · have := List.rel_of_pairwise_cons hp1 hc
            rw [heq] at this
            omega
          · exact h
        · intro hc
          have hcm := (hmem c).mpr (List.mem_cons_of_mem a hc)
          rcases List.mem_cons.mp hcm with heq | h
          · have := List.rel_of_pairwise_cons hp2 hc
            rw [heq] at this
            omega
          · exact h
      rw [ih t2 hp1.of_cons hp2.of_cons htail]

theorem selPairs_mem {x : ℕ → ℕ → Bool} {n : ℕ} (i j : ℕ) :
    (i, j) ∈ selPairs x n ↔ Selected x n i j := by
  rw [selPairs, mem_catMaps]
  constructor
  · rintro ⟨v, hv, hmem⟩
    obtain ⟨j2, hj2, heq⟩ := List.mem_map.mp hmem
    have h1 : v = i := congrArg Prod.fst heq
    have h2 : j2 = j := congrArg Prod.snd heq
    subst h1
    subst h2
    rw [List.mem_filter, List.mem_range, edgePred_eq_true] at hj2
    exact ⟨hj2.2.1, hj2.1, hj2.2.2⟩
  · intro hs
    refine ⟨i, ?_, ?_⟩
    · rw [List.mem_range]
      have h1 := hs.1
      have h2 := hs.2.1
      omega
    · exact List.mem_map.mpr ⟨j, selected_mem_filter hs, rfl⟩

theorem selPairs_pairwise {x : ℕ → ℕ → Bool} {n : ℕ} (hf : FlowFeasible x n) :
    (selPairs x n).Pairwise (fun a b => a.1 < b.1) := by
  apply pairwise_catMaps _ _ (fun i a => a.1 = i)
  · intro i i2 hii a b ha hb
    rw [ha, hb]
    exact hii
  · exact List.pairwise_lt_range n
  · intro i _ a ha
    obtain ⟨j, _, heq⟩ := List.mem_map.mp ha
    exact (congrArg Prod.fst heq).symm
  · intro i _
    rw [List.length_map]
    exact row_length_le_one hf i

theorem map_catMaps {α β : Type} (g : α → β) (f : ℕ → List α) :
    ∀ l : List ℕ, (catMaps f l).map g = catMaps (fun i => (f i).map g) l := by
  intro l
  induction l with
  | nil => rfl
  | cons i t ih =>
    show (f i ++ catMaps f t).map g = (f i).map g ++ catMaps (fun i => (f i).map g) t
    rw [List.map_append, ih]

theorem extractList_eq_selPairs_map (x : ℕ → ℕ → Bool) (n : ℕ) :
    extractList x n = (selPairs x n).map (fun p => p.1 + 300) := by
  rw [extractList, selPairs, map_catMaps]
  congr 1
  funext i
  rw [List.map_map]
  rfl

theorem selPairs_eq_chain_pairs {x : ℕ → ℕ → Bool} {n : ℕ} (hf : FlowFeasible x n) :
    selPairs x n = (chainFrom x n 0 n).zip (chainFrom x n 0 n).tail := by
  apply eq_of_key_sorted Prod.fst _ _ (selPairs_pairwise hf)
  · apply (List.pairwise_map (f := Prod.fst)).mp
    rw [zip_tail_fst]
    exact (List.chain'_iff_pairwise.mp (chainFrom_chain' x n n 0)).sublist
      (List.dropLast_sublist _)
  · intro a
    rcases a with ⟨i, j⟩
    rw [selPairs_mem]
    exact selected_iff_chain_pair hf i j

theorem le_getLast_of_chain :
    ∀ (t : List ℕ) (b : ℕ), List.Chain (· < ·) b t →
      b ≤ (b :: t).getLast (List.cons_ne_nil b t) := by
  intro t
  induction t with
  | nil => intro b _; exact le_refl b
  | cons c t2 ih =>
    intro b hc
    rcases hc with _ | ⟨hbc, hc2⟩
    have h1 := ih c hc2
    rw [List.getLast_cons (List.cons_ne_nil c t2)]
    omega

theorem binSums_telescope (h : ℕ → ℚ) :
    ∀ (t : List ℕ) (a : ℕ), 300 ≤ a → List.Chain (· < ·) a t →
      (binSums h (a :: t)).sum =
        ((List.range' (a - 300) ((a :: t).getLast (List.cons_ne_nil a t) - a)).map h).sum := by
  intro t
  induction t with
  | nil =>
    intro a _ _
    show (0 : ℚ) = _
    rw [List.getLast_singleton, Nat.sub_self]
    rfl
  | cons b t2 ih =>
    intro a ha hc
    rcases hc with _ | ⟨hab, hc2⟩
    have hble := le_getLast_of_chain t2 b hc2
    have hstep : binSums h (a :: b :: t2) =
        (((List.range' (a - 300) ((b - 300) - (a - 300))).map h).sum) ::
          binSums h (b :: t2) := by
      rw [binSums, List.tail_cons, List.zip_cons_cons, List.map_cons]
      rfl
    rw [hstep, List.sum_cons, ih b (by omega) hc2]
    rw [List.getLast_cons (List.cons_ne_nil b t2)]
    have hlen1 : (b - 300) - (a - 300) = b - a := by omega
    have hsplit := List.range'_append (a - 300) (b - a)
      ((b :: t2).getLast (List.cons_ne_nil b t2) - b) 1
    have hidx : (a - 300) + 1 * (b - a) = b - 300 := by omega
    have htot : ((b :: t2).getLast (List.cons_ne_nil b t2) - b) + (b - a) =
        (b :: t2).getLast (List.cons_ne_nil b t2) - a := by omega
    rw [hidx, htot] at hsplit
    rw [hlen1, ← hsplit, List.map_append, List.sum_append]

theorem psiTerm_nonneg {lg : ℚ → ℚ} (hm : Monotone lg) (h1 : lg 1 = 0) {eps a b : ℚ}
    (heps : 0 < eps) (ha : 0 ≤ a) (hb : 0 ≤ b) :
    0 ≤ (a - b) * lg ((a + eps) / (b + eps)) := by
  rcases le_total a b with hab | hab
  · have hratio : (a + eps) / (b + eps) ≤ 1 := by
      rw [div_le_one (by linarith)]
      linarith
    have hlg : lg ((a + eps) / (b + eps)) ≤ 0 := h1 ▸ hm hratio
    have hsub : a - b ≤ 0 := by linarith
    have hmul := mul_nonneg (neg_nonneg.mpr hsub) (neg_nonneg.mpr hlg)
    rw [neg_mul_neg] at hmul
    exact hmul
  · have hratio : 1 ≤ (a + eps) / (b + eps) := by
      rw [one_le_div (by linarith)]
      linarith
    have hlg : 0 ≤ lg ((a + eps) / (b + eps)) := h1 ▸ hm hratio
    have hsub : 0 ≤ a - b := by linarith
    exact mul_nonneg hsub hlg

theorem percentMat_nonneg {h : ℕ → ℚ} (hh : ∀ p, 0 ≤ h p) (i j : ℕ) :
    0 ≤ percentMat h i j := by
  apply List.sum_nonneg
  intro q hq
  obtain ⟨p, _, rfl⟩ := List.mem_map.mp hq
  exact hh p

theorem binSums_nonneg {h : ℕ → ℚ} (hh : ∀ p, 0 ≤ h p) {edges : List ℕ} {q : ℚ}
    (hq : q ∈ binSums h edges) : 0 ≤ q := by
  obtain ⟨e, _, rfl⟩ := List.mem_map.mp hq
  apply List.sum_nonneg
  intro v hv
  obtain ⟨p, _, rfl⟩ := List.mem_map.mp hv
  exact hh p

theorem transPsi_nonneg {lg : ℚ → ℚ} (hm : Monotone lg) (h1 : lg 1 = 0) {eps : ℚ}
    (heps : 0 < eps) (edges : List ℕ) {g1 g2 : ℕ → ℚ}
    (hg1 : ∀ p, 0 ≤ g1 p) (hg2 : ∀ p, 0 ≤ g2 p) :
    0 ≤ transPsi lg eps edges g1 g2 := by
  apply List.sum_nonneg
  intro q hq
  obtain ⟨b, hb, rfl⟩ := List.mem_map.mp hq
  have hmem := List.of_mem_zip hb
  exact psiTerm_nonneg hm h1 heps (binSums_nonneg hg1 hmem.1)
    (binSums_nonneg hg2 hmem.2)

theorem trainSweep_nil (lg : ℚ → ℚ) (eps : ℚ) (edges : List ℕ) (X : List (ℕ → ℚ))
    (y : List (Fin 2)) (st : SweepState) :
    trainSweep lg eps edges X y [] st = .ok st := rfl

theorem trainSweep_cons (lg : ℚ → ℚ) (eps : ℚ) (edges : List ℕ) (X : List (ℕ → ℚ))
    (y : List (Fin 2)) (t : ℚ) (ths : List ℚ) (st : SweepState) :
    trainSweep lg eps edges X y (t :: ths) st =
      match sweepStep lg eps edges X y st t with
      | .error e => .error e
      | .ok st2 => trainSweep lg eps edges X y ths st2 := rfl

theorem trainSweep_invariant (lg : ℚ → ℚ) (eps : ℚ) (edges : List ℕ) (X : List (ℕ → ℚ))
    (y : List (Fin 2)) :
    ∀ (ths : List ℚ) (st0 st : SweepState),
      trainSweep lg eps edges X y ths st0 = .ok st →
      (st = st0 ∧ ∀ t ∈ ths, ∀ p0 r1 f2,
          metricAt lg eps edges X y t = .ok (p0, r1, f2) → f2 ≤ st0.bestF2) ∨
      (st.bestThreshold ∈ ths ∧ ConsistentAt lg eps edges X y st ∧
        st0.bestF2 < st.bestF2 ∧
        ∀ t ∈ ths, ∀ p0 r1 f2,
          metricAt lg eps edges X y t = .ok (p0, r1, f2) → f2 ≤ st.bestF2) := by
  intro ths
  induction ths with
  | nil =>
    intro st0 st h
    rw [trainSweep_nil] at h
    left
    refine ⟨(Except.ok.inj h).symm, ?_⟩
    intro t ht
    exact absurd ht (List.not_mem_nil t)
  | cons t ths ih =>
    intro st0 st h
    rw [trainSweep_cons] at h
    cases hstep : sweepStep lg eps edges X y st0 t with
    | error e =>
      rw [hstep] at h
      cases h
    | ok st1 =>
      rw [hstep] at h
      cases hmet : metricAt lg eps edges X y t with
      | error e =>
        rw [sweepStep, hmet] at hstep
        cases hstep
      | ok tr =>
        obtain ⟨p0, r1, f2⟩ := tr
        rw [sweepStep, hmet] at hstep
        dsimp only at hstep
        by_cases hlt : st0.bestF2 < f2
        · rw [if_pos hlt] at hstep
          have hst1 : st1 =
              ⟨t, p0, r1, f2, predsAt lg eps edges X y t,
                accuracy y (predsAt lg eps edges X y t)⟩ :=
            (Except.ok.inj hstep).symm
          subst hst1
          rcases ih _ st h with ⟨rfl, hbound⟩ | ⟨hmem, hcons, hlt2, hbound⟩
          · right
            refine ⟨List.mem_cons_self t ths, ⟨hmet, rfl, rfl⟩, hlt, ?_⟩
            intro u hu q0 q1 g2 hm2
            rcases List.mem_cons.mp hu with rfl | hu2
            · rw [hmet] at hm2
              have hg : f2 = g2 := congrArg (fun v => v.2.2) (Except.ok.inj hm2)
              rw [← hg]
            · exact hbound u hu2 q0 q1 g2 hm2
          · right
            refine ⟨List.mem_cons_of_mem t hmem, hcons, lt_trans hlt hlt2, ?_⟩
            intro u hu q0 q1 g2 hm2
            rcases List.mem_cons.mp hu with rfl | hu2
            · rw [hmet] at hm2
              have hg : f2 = g2 := congrArg (fun v => v.2.2) (Except.ok.inj hm2)
              rw [← hg]
              exact le_of_lt hlt2
            · exact hbound u hu2 q0 q1 g2 hm2
        · rw [if_neg hlt] at hstep
          have hst1 : st1 = st0 := (Except.ok.inj hstep).symm
          subst hst1
          rcases ih _ st h with ⟨rfl, hbound⟩ | ⟨hmem, hcons, hlt2, hbound⟩
          · left
            refine ⟨rfl, ?_⟩
            intro u hu q0 q1 g2 hm2
            rcases List.mem_cons.mp hu with rfl | hu2
            · rw [hmet] at hm2
              have hg : f2 = g2 := congrArg (fun v => v.2.2) (Except.ok.inj hm2)
              rw [← hg]
              exact not_lt.mp hlt
            · exact hbound u hu2 q0 q1 g2 hm2
          · right
            refine ⟨List.mem_cons_of_mem t hmem, hcons, hlt2, ?_⟩
            intro u hu q0 q1 g2 hm2
            rcases List.mem_cons.mp hu with rfl | hu2
            · rw [hmet] at hm2
              have hg : f2 = g2 := congrArg (fun v => v.2.2) (Except.ok.inj hm2)
              rw [← hg]
              exact le_of_lt (lt_of_le_of_lt (not_lt.mp hlt) hlt2)
            · exact hbound u hu2 q0 q1 g2 hm2

theorem sum_map_zf : ∀ l : List ℕ, (l.map zf).sum = 0 := by
  intro l
  induction l with
  | nil => rfl
  | cons a t ih =>
    rw [List.map_cons, List.sum_cons, ih]
    simp [zf]

theorem transPsi_zf (lg : ℚ → ℚ) : transPsi lg eps8 [300, 850] zf zf = 0 := by
  have hb : binSums zf [300, 850] = [0] := by
    show [((List.range' 0 550).map zf).sum] = [0]
    rw [sum_map_zf]
  rw [transPsi, hb]
  simp

theorem roundHalfEven_intCast (z : ℤ) : roundHalfEven ((z : ℚ)) = z := by
  rw [roundHalfEven, Int.floor_intCast]
  norm_num

theorem pyRound4_one : pyRound4 1 = 1 := by
  rw [pyRound4, show ((1 : ℚ) * 10000) = ((10000 : ℤ) : ℚ) by norm_num,
    roundHalfEven_intCast]
  norm_num

theorem pyRound4_zero : pyRound4 0 = 0 := by
  rw [pyRound4, show ((0 : ℚ) * 10000) = ((0 : ℤ) : ℚ) by norm_num,
    roundHalfEven_intCast]
  norm_num

theorem binSums_single (h : ℕ → ℚ) : binSums h [300, 301] = [h 0] := by
  show [((List.range' 0 1).map h).sum] = [h 0]
  simp

theorem transPsi_g1_g3 : transPsi lgLin 1 [300, 301] g1 g3 = 1 := by
  rw [transPsi, binSums_single, binSums_single]
  show (g1 0 - g3 0) * lgLin ((g1 0 + 1) / (g3 0 + 1)) + 0 = 1
  norm_num [g1, g3, lgLin]

theorem transPsi_g3_g1 : transPsi lgLin 1 [300, 301] g3 g1 = 2 := by
  rw [transPsi, binSums_single, binSums_single]
  show (g3 0 - g1 0) * lgLin ((g3 0 + 1) / (g1 0 + 1)) + 0 = 2
  norm_num [g1, g3, lgLin]

theorem predsAt_w : predsAt lgLin 1 [300, 301] Xw3 yw2 (3 / 2) = [0, 1] := by
  show [predRule (transPsi lgLin 1 [300, 301] g1 g3) (3 / 2) 0,
        predRule (transPsi lgLin 1 [300, 301] g3 g1) (3 / 2) 1] = [0, 1]
  rw [transPsi_g1_g3, transPsi_g3_g1]
  rw [predRule, if_pos (Or.inl ⟨rfl, by norm_num⟩)]
  rw [predRule, if_pos (Or.inr ⟨rfl, by norm_num⟩)]

theorem metricAt_w : metricAt lgLin 1 [300, 301] Xw3 yw2 (3 / 2) = .ok (1, 1, 1) := by
  rw [metricAt, predsAt_w, invWeightedFbeta]
  have hlab : labelsPresent yw2 [0, 1] = [0, 1] := rfl
  rw [hlab]
  dsimp only
  have hprec : precisionOf yw2 [0, 1] 0 = 1 := by
    rw [precisionOf, if_neg (by decide : ¬ countLabel ([0, 1] : List (Fin 2)) 0 = 0)]
    norm_num [show tpCount yw2 [0, 1] 0 = 1 from rfl,
      show countLabel ([0, 1] : List (Fin 2)) 0 = 1 from rfl]
  have hrec1 : recallOf yw2 [0, 1] 1 = 1 := by
    rw [recallOf, if_neg (by decide : ¬ countLabel yw2 1 = 0)]
    norm_num [show tpCount yw2 [0, 1] 1 = 1 from rfl,
      show countLabel yw2 1 = 1 from rfl]
  have hrec0 : recallOf yw2 [0, 1] 0 = 1 := by
    rw [recallOf, if_neg (by decide : ¬ countLabel yw2 0 = 0)]
    norm_num [show tpCount yw2 [0, 1] 0 = 1 from rfl,
      show countLabel yw2 0 = 1 from rfl]
  have hprec1 : precisionOf yw2 [0, 1] 1 = 1 := by
    rw [precisionOf, if_neg (by decide : ¬ countLabel ([0, 1] : List (Fin 2)) 1 = 0)]
    norm_num [show tpCount yw2 [0, 1] 1 = 1 from rfl,
      show countLabel ([0, 1] : List (Fin 2)) 1 = 1 from rfl]
  have hf0 : fbetaOf 2 yw2 [0, 1] 0 = 1 := by
    rw [fbetaOf, hprec, hrec0]
    norm_num
  have hf1 : fbetaOf 2 yw2 [0, 1] 1 = 1 := by
    rw [fbetaOf, hprec1, hrec1]
    norm_num
  have hsc : fbetaOf 2 yw2 [0, 1] 0 *
        ((countLabel yw2 1 : ℚ) / ((countLabel yw2 0 : ℚ) + (countLabel yw2 1 : ℚ))) +
      fbetaOf 2 yw2 [0, 1] 1 *
        ((countLabel yw2 0 : ℚ) / ((countLabel yw2 0 : ℚ) + (countLabel yw2 1 : ℚ))) = 1 := by
    rw [hf0, hf1, show countLabel yw2 0 = 1 from rfl, show countLabel yw2 1 = 1 from rfl]
    norm_num
  rw [hprec, hrec1, hsc, pyRound4_one]

theorem accuracy_w : accuracy yw2 [0, 1] = 1 := by
  rw [accuracy, show ((yw2.zip [0, 1]).filter (fun p => p.1 == p.2)).length = 2 from rfl,
    show yw2.length = 2 from rfl]
  norm_num

theorem trainSweep_w :
    trainSweep lgLin 1 [300, 301] Xw3 yw2 [3 / 2] (initState (Xw3.length - 1)) = .ok stW := by
  rw [trainSweep_cons, sweepStep, metricAt_w]
  dsimp only
  rw [if_pos (show (initState (Xw3.length - 1)).bestF2 < 1 by norm_num [initState])]
  dsimp only
  rw [trainSweep_nil, predsAt_w, accuracy_w]
  rfl

theorem predRule_zf_tenth : predRule 0 (1 / 10) 1 = 0 := by
  have hcond : ¬ (((1 : Fin 2) = 0 ∧ (0 : ℚ) < 1 / 10) ∨
      ((1 : Fin 2) = 1 ∧ (1 / 10 : ℚ) ≤ 0)) := by
    rintro (⟨h, -⟩ | ⟨-, h⟩)
    · exact absurd h (by decide)
    · norm_num at h
  rw [predRule, if_neg hcond]
  decide

theorem predsAt_zf_tenth (lg : ℚ → ℚ) :
    predsAt lg eps8 [300, 850] [zf, zf] [1] (1 / 10) = [0] := by
  show [predRule (transPsi lg eps8 [300, 850] zf zf) (1 / 10) 1] = [0]
  rw [transPsi_zf, predRule_zf_tenth]

theorem iw_zf : invWeightedFbeta 2 [(1 : Fin 2)] [(0 : Fin 2)] = .ok (0, 0, 0) := by
  rw [invWeightedFbeta]
  have hlab : labelsPresent [(1 : Fin 2)] [(0 : Fin 2)] = [0, 1] := rfl
  rw [hlab]
  dsimp only
  have hprec : precisionOf [(1 : Fin 2)] [(0 : Fin 2)] 0 = 0 := by
    rw [precisionOf, if_neg (by decide : ¬ countLabel ([0] : List (Fin 2)) 0 = 0)]
    norm_num [show tpCount [(1 : Fin 2)] [(0 : Fin 2)] 0 = 0 from rfl]
  have hrec1 : recallOf [(1 : Fin 2)] [(0 : Fin 2)] 1 = 0 := by
    rw [recallOf, if_neg (by decide : ¬ countLabel ([1] : List (Fin 2)) 1 = 0)]
    norm_num [show tpCount [(1 : Fin 2)] [(0 : Fin 2)] 1 = 0 from rfl]
  have hrec0 : recallOf [(1 : Fin 2)] [(0 : Fin 2)] 0 = 0 := by
    rw [recallOf, if_pos (by decide : countLabel ([1] : List (Fin 2)) 0 = 0)]
  have hprec1 : precisionOf [(1 : Fin 2)] [(0 : Fin 2)] 1 = 0 := by
    rw [precisionOf, if_pos (by decide : countLabel ([0] : List (Fin 2)) 1 = 0)]
  have hf0 : fbetaOf 2 [(1 : Fin 2)] [(0 : Fin 2)] 0 = 0 := by
    rw [fbetaOf, hprec, hrec0]
    norm_num
  have hf1 : fbetaOf 2 [(1 : Fin 2)] [(0 : Fin 2)] 1 = 0 := by
    rw [fbetaOf, hprec1, hrec1]
    norm_num
  have hsc : fbetaOf 2 [(1 : Fin 2)] [(0 : Fin 2)] 0 *
        ((countLabel [(1 : Fin 2)] 1 : ℚ) /
          ((countLabel [(1 : Fin 2)] 0 : ℚ) + (countLabel [(1 : Fin 2)] 1 : ℚ))) +
      fbetaOf 2 [(1 : Fin 2)] [(0 : Fin 2)] 1 *
        ((countLabel [(1 : Fin 2)] 0 : ℚ) /
          ((countLabel [(1 : Fin 2)] 0 : ℚ) + (countLabel [(1 : Fin 2)] 1 : ℚ))) = 0 := by
    rw [hf0, hf1]
    norm_num
  rw [hprec, hrec1, hsc, pyRound4_zero]

theorem predRule_zf_zero : predRule 0 0 1 = 1 := by
  rw [predRule, if_pos (Or.inr ⟨rfl, le_refl 0⟩)]

/-! ### Claim theorems -/

/-- C2 counterexample: there is no pair of runs — no psi value, threshold and
pair of distinct true labels — on which the source's classification rule
disagrees with the pure rule that predicts `1` iff `psi ≥ threshold`. -/
theorem c2_counterexample :
    ¬ ∃ (psi t : ℚ) (y y' : Fin 2), y ≠ y' ∧
      (predRule psi t y ≠ pureRule psi t ∨ predRule psi t y' ≠ pureRule psi t) := by
  rintro ⟨psi, t, y, y', -, h | h⟩ <;> exact h (pred_eq_pure psi t _)

/-- C2 (amended): the baseline classification rule, despite being written as
a comparison against the true label with a conditional flip, is extensionally
the pure rule predicting `1` iff `psi ≥ threshold`; the prediction is a
function of the PSI value and the threshold alone. -/
theorem c2_rule_is_pure (psi t : ℚ) (y : Fin 2) :
    predRule psi t y = pureRule psi t :=
  pred_eq_pure psi t y

/-- C3: on a two-day training set whose single transition is labeled `0`,
the class-1 PSI aggregation divides by the zero class count; the source
raises no `DegenerateClassError` — numpy silently produces the NaN matrix
(`none`), for every external log function. -/
theorem c3_degenerate_class_silent_nan :
    ∀ lg : ℚ → ℚ,
      classPsiAgg (psiMatrices lg eps8 [zf, zf])
        (([0] : List (Fin 2)).map (fun v => v == 1)) = none := by
  intro lg
  rfl

/-- C1: when the solver status is not accepted (INFEASIBLE or any backend
failure), the source continues instead of surfacing a typed failure:
`final_bin_edges` stays empty, `final_num_bin` becomes `-1`, and every
downstream per-transition aggregated-bin PSI over the empty edge list is
silently `0`. -/
theorem c1_solver_failure_silently_consumed (s : MipStatus)
    (h : statusAccepted s = false) (x : ℕ → ℕ → Bool) :
    finalBinEdges s x = [] ∧ finalNumBin s x = -1 ∧
      ∀ (lg : ℚ → ℚ) (eps : ℚ) (h1 h2 : ℕ → ℚ),
        transPsi lg eps (finalBinEdges s x) h1 h2 = 0 := by
  have he : finalBinEdges s x = [] := by simp [finalBinEdges, h]
  refine ⟨he, ?_, ?_⟩
  · simp [finalNumBin, he]
  · intro lg eps h1 h2
    rw [he]
    rfl

/-- witness for C1 at the INFEASIBLE status and the all-false assignment. -/
theorem c1_witness :
    statusAccepted MipStatus.infeasible = false ∧
      (finalBinEdges .infeasible xnone = [] ∧ finalNumBin .infeasible xnone = -1 ∧
        ∀ (lg : ℚ → ℚ) (eps : ℚ) (h1 h2 : ℕ → ℚ),
          transPsi lg eps (finalBinEdges .infeasible xnone) h1 h2 = 0) :=
  ⟨rfl, c1_solver_failure_silently_consumed .infeasible rfl xnone⟩


/-- C4: every binary assignment satisfying the interior flow constraints
(inbound and outbound degree at most one and equal at every interior
position) and the boundary constraints (exactly one pair out of position
`0`, exactly one pair into position `n - 1`) selects a set of pairs forming
a single simple path from position `0` to position `n - 1`: a valid
non-overlapping partition of the support into contiguous bins. -/
theorem c4_flow_forms_single_path (x : ℕ → ℕ → Bool) (n : ℕ) (hn : 2 ≤ n)
    (hf : FlowFeasible x n) : IsSinglePath x n :=
  flow_single_path x n hn hf

/-- witness for C4 at the two-pair assignment on three positions. -/
theorem c4_witness : (2 ≤ 3 ∧ FlowFeasible x3 3) ∧ IsSinglePath x3 3 :=
  ⟨⟨by norm_num, by decide⟩, c4_flow_forms_single_path x3 3 (by norm_num) (by decide)⟩

/-- C5: for every feasible binary solution of the full program (flow,
boundary and cardinality constraints), the extracted edge sequence is
strictly increasing, starts at `min_edge = 300`, ends at `max_edge = 850`,
and its length minus one lies between `min_num_bins = 5` and
`max_num_bins = 25`. -/
theorem c5_successful_solve_edge_shape (x : ℕ → ℕ → Bool)
    (hf : FlowFeasible x trainSize) (hc : CardFeasible x trainSize) :
    List.Chain' (· < ·) (extractEdges x trainSize) ∧
    (extractEdges x trainSize).head? = some 300 ∧
    (extractEdges x trainSize).getLast? = some 850 ∧
    5 ≤ (extractEdges x trainSize).length - 1 ∧
    (extractEdges x trainSize).length - 1 ≤ 25 := by
  have hlen : (extractEdges x trainSize).length = numSelected x trainSize + 1 := by
    rw [extractEdges, List.length_append, extractList_length]
    rfl
  refine ⟨?_, ?_, ?_, ?_, ?_⟩
  · rw [extractEdges, List.chain'_append]
    refine ⟨(extractList_pairwise hf).chain', List.chain'_singleton 850, ?_⟩
    intro a ha b hb
    obtain ⟨hne, heq⟩ := List.mem_getLast?_eq_getLast ha
    have hmem : a ∈ extractList x trainSize := heq ▸ List.getLast_mem hne
    have := extractList_lt_850 hmem
    simp only [List.head?_cons, Option.mem_def, Option.some.injEq] at hb
    omega
  · rw [extractEdges, List.head?_append, extractList_head hf (by decide)]
    rfl
  · rw [extractEdges]
    exact List.getLast?_concat _
  · have hc1 := hc.1
    omega
  · have hc2 := hc.2
    omega

/-- witness for C5 at the ten-pair assignment `xw`. -/
theorem c5_witness :
    (FlowFeasible xw trainSize ∧ CardFeasible xw trainSize) ∧
      (List.Chain' (· < ·) (extractEdges xw trainSize) ∧
        (extractEdges xw trainSize).head? = some 300 ∧
        (extractEdges xw trainSize).getLast? = some 850 ∧
        5 ≤ (extractEdges xw trainSize).length - 1 ∧
        (extractEdges xw trainSize).length - 1 ≤ 25) := by
  have hf : FlowFeasible xw trainSize := xw_flow
  have hc : CardFeasible xw trainSize := by
    refine ⟨?_, ?_⟩ <;>
      · show _ ≤ _
        rw [show numSelected xw trainSize = 10 from numSelected_xw]
        norm_num
  exact ⟨⟨hf, hc⟩, c5_successful_solve_edge_shape xw hf hc⟩

/-- C6: on every flow-feasible binary solution the extraction loop's edge
list (`i + min_edge` per selected pair in ascending scan order, then the
unconditional append of `max_edge`) equals the spec's reference list
(`[min_edge]` followed by `j + min_edge` for each selected `j` in chain
order), and the unconditional append never duplicates the terminal edge. -/
theorem c6_extractor_matches_reference (x : ℕ → ℕ → Bool)
    (hf : FlowFeasible x trainSize) :
    extractEdges x trainSize = specEdges x trainSize ∧
      850 ∉ extractList x trainSize := by
  constructor
  · have hpairs := selPairs_eq_chain_pairs hf
    set l := chainFrom x trainSize 0 trainSize with hldef
    obtain ⟨t, hcons⟩ := chainFrom_cons x trainSize trainSize 0
    have hne : l ≠ [] := chainFrom_ne_nil x trainSize trainSize 0
    have hlast2 : l.getLast hne = trainSize - 1 := by
      have h1 := List.getLast?_eq_getLast_of_ne_nil hne
      have h2 := chainFrom_last_eq (x := x) (n := trainSize) (by decide) hf
      rw [← hldef] at h2
      rw [h2] at h1
      exact (Option.some_inj.mp h1).symm
    have e1 : (l.zip l.tail).map (fun p => p.1 + 300) ++ [850] =
        l.map (fun v => v + 300) := by
      conv_rhs => rw [← List.dropLast_append_getLast hne]
      rw [List.map_append, hlast2]
      congr 1
      rw [← zip_tail_fst l, List.map_map]
      rfl
    have e2 : (300 : ℕ) :: (l.zip l.tail).map (fun p => p.2 + 300) =
        l.map (fun v => v + 300) := by
      have h2 : (l.zip l.tail).map (fun p => p.2 + 300) =
          l.tail.map (fun v => v + 300) := by
        conv_rhs => rw [← zip_tail_snd l]
        rw [List.map_map]
        rfl
      rw [h2, hldef, hcons]
      rfl
    rw [extractEdges, extractList_eq_selPairs_map, specEdges, hpairs]
    rw [e1, e2]
  · intro hmem
    have := extractList_lt_850 hmem
    omega

/-- witness for C6 at the ten-pair assignment `xw`. -/
theorem c6_witness :
    FlowFeasible xw trainSize ∧
      (extractEdges xw trainSize = specEdges xw trainSize ∧
        850 ∉ extractList xw trainSize) :=
  ⟨xw_flow, c6_extractor_matches_reference xw xw_flow⟩

/-- C7: for every histogram row and every edge sequence strictly increasing
from `min_edge = 300` to `max_edge = 850`, the sum of the aggregated per-bin
masses equals the total histogram mass over the 550 support positions,
exactly in exact arithmetic. -/
theorem c7_bins_preserve_mass (h : ℕ → ℚ) (edges : List ℕ)
    (hchain : List.Chain' (· < ·) edges) (hhead : edges.head? = some 300)
    (hlast : edges.getLast? = some 850) :
    (binSums h edges).sum = ((List.range' 0 550).map h).sum := by
  rcases edges with _ | ⟨e0, t⟩
  · cases hhead
  · have he0 : e0 = 300 := by
      rw [List.head?_cons] at hhead
      exact Option.some_inj.mp hhead
    subst he0
    have hch : List.Chain (· < ·) 300 t := hchain
    have hlast2 : (300 :: t).getLast (List.cons_ne_nil 300 t) = 850 := by
      have h1 := List.getLast?_eq_getLast_of_ne_nil (List.cons_ne_nil 300 t)
      rw [hlast] at h1
      exact (Option.some_inj.mp h1).symm
    rw [binSums_telescope h t 300 (le_refl 300) hch, hlast2]

/-- witness for C7 at the constant row and the edge list `[300, 400, 850]`. -/
theorem c7_witness :
    (List.Chain' (· < ·) ([300, 400, 850] : List ℕ) ∧
      ([300, 400, 850] : List ℕ).head? = some 300 ∧
      ([300, 400, 850] : List ℕ).getLast? = some 850) ∧
      (binSums cf [300, 400, 850]).sum = ((List.range' 0 550).map cf).sum :=
  ⟨⟨by norm_num [List.chain'_cons, List.chain'_singleton], rfl, rfl⟩,
    c7_bins_preserve_mass cf [300, 400, 850]
      (by norm_num [List.chain'_cons, List.chain'_singleton]) rfl rfl⟩

/-- C10: with the external log monotone and vanishing at `1` (as `np.log`
is on positives), every entry of every per-transition PSI matrix built from
non-negative histogram rows is non-negative, and every per-transition
aggregated-bin PSI value computed during evaluation is non-negative. -/
theorem c10_psi_terms_nonneg (lg : ℚ → ℚ) (hm : Monotone lg) (h1 : lg 1 = 0)
    (eps : ℚ) (heps : 0 < eps) (X : List (ℕ → ℚ)) (hX : ∀ g ∈ X, ∀ p, 0 ≤ g p) :
    (∀ m ∈ psiMatrices lg eps X, ∀ i j, 0 ≤ m i j) ∧
    (∀ (edges : List ℕ) (g1 g2 : ℕ → ℚ), (∀ p, 0 ≤ g1 p) → (∀ p, 0 ≤ g2 p) →
      0 ≤ transPsi lg eps edges g1 g2) := by
  constructor
  · intro m hmem i j
    obtain ⟨t, ht, rfl⟩ := List.mem_map.mp hmem
    have hz := List.of_mem_zip ht
    have ht1 : ∀ p, 0 ≤ t.1 p := hX t.1 hz.1
    have ht2 : ∀ p, 0 ≤ t.2 p := hX t.2 (List.mem_of_mem_tail hz.2)
    exact psiTerm_nonneg hm h1 heps (percentMat_nonneg ht2 i j) (percentMat_nonneg ht1 i j)
  · intro edges g1 g2 hg1 hg2
    exact transPsi_nonneg hm h1 heps edges hg1 hg2

/-- witness for C10 at the linear log surrogate, `eps = 1e-8` and the
constant histogram. -/
theorem c10_witness :
    (Monotone lgLin ∧ lgLin 1 = 0 ∧ (0 : ℚ) < eps8 ∧ (∀ g ∈ [cf], ∀ p, 0 ≤ g p)) ∧
      ((∀ m ∈ psiMatrices lgLin eps8 [cf], ∀ i j, 0 ≤ m i j) ∧
        (∀ (edges : List ℕ) (g1 g2 : ℕ → ℚ), (∀ p, 0 ≤ g1 p) → (∀ p, 0 ≤ g2 p) →
          0 ≤ transPsi lgLin eps8 edges g1 g2)) := by
  have hm : Monotone lgLin := fun a b hab => by
    simpa [lgLin] using sub_le_sub_right hab 1
  have h1 : lgLin 1 = 0 := by norm_num [lgLin]
  have heps : (0 : ℚ) < eps8 := by norm_num [eps8]
  have hX : ∀ g ∈ [cf], ∀ p, 0 ≤ g p := by
    intro g hg p
    rw [List.mem_singleton] at hg
    subst hg
    norm_num [cf]
  exact ⟨⟨hm, h1, heps, hX⟩, c10_psi_terms_nonneg lgLin hm h1 eps8 heps [cf] hX⟩

/-- C8 (amended): whenever the training sweep completes without a metric
error and the retained (rounded) inverse-weighted F-beta score is strictly
positive, the retained threshold is a member of the candidate list that
maximizes the score over the candidates, and the reported precision-0,
recall-1, prediction vector (hence confusion matrix) and accuracy are
exactly the ones computed at the retained threshold.  (When no candidate
scores above the initial `0`, the state keeps the initial threshold `0`,
which need not belong to the candidate list.) -/
theorem c8_sweep_retains_argmax (lg : ℚ → ℚ) (eps : ℚ) (edges : List ℕ)
    (X : List (ℕ → ℚ)) (y : List (Fin 2)) (ths : List ℚ) (st : SweepState)
    (h : trainSweep lg eps edges X y ths (initState (X.length - 1)) = .ok st)
    (hpos : 0 < st.bestF2) :
    st.bestThreshold ∈ ths ∧
    metricAt lg eps edges X y st.bestThreshold = .ok (st.bestP0, st.bestR1, st.bestF2) ∧
    st.bestPred = predsAt lg eps edges X y st.bestThreshold ∧
    st.accTrain = accuracy y st.bestPred ∧
    ∀ t ∈ ths, ∀ p0 r1 f2,
      metricAt lg eps edges X y t = .ok (p0, r1, f2) → f2 ≤ st.bestF2 := by
  rcases trainSweep_invariant lg eps edges X y ths _ st h with ⟨rfl, _⟩ | hgood
  · simp [initState] at hpos
  · exact ⟨hgood.1, hgood.2.1.1, hgood.2.1.2.1, hgood.2.1.2.2, hgood.2.2.2⟩

/-- C8 counterexample: a training set (two identical all-zero rows, single
transition labeled `1`) on which, for every external log function, the sweep
over the source's candidate list `[0.1]` scores `0` everywhere, never
updates, and retains the initial threshold `0` — which is not a member of
the candidate list. -/
theorem c8_counterexample :
    ∃ (edges : List ℕ) (X : List (ℕ → ℚ)) (y : List (Fin 2)) (st : SweepState),
      (∀ lg : ℚ → ℚ,
        trainSweep lg eps8 edges X y [1 / 10] (initState (X.length - 1)) = .ok st) ∧
      st.bestThreshold ∉ ([1 / 10] : List ℚ) := by
  refine ⟨[300, 850], [zf, zf], [1], ⟨0, 0, 0, 0, [0], 0⟩, fun lg => ?_, ?_⟩
  · rw [trainSweep_cons, sweepStep, metricAt, predsAt_zf_tenth, iw_zf]
    dsimp only
    rw [if_neg (show ¬ (initState ([zf, zf].length - 1)).bestF2 < 0 by norm_num [initState])]
    dsimp only
    rw [trainSweep_nil]
    rfl
  · intro h
    rw [List.mem_singleton] at h
    dsimp only at h
    norm_num at h

/-- witness for C8 on the three-day integer-valued training set. -/
theorem c8_witness :
    (trainSweep lgLin 1 [300, 301] Xw3 yw2 [3 / 2] (initState (Xw3.length - 1)) =
        .ok stW ∧ 0 < stW.bestF2) ∧
    (stW.bestThreshold ∈ ([3 / 2] : List ℚ) ∧
      metricAt lgLin 1 [300, 301] Xw3 yw2 stW.bestThreshold =
        .ok (stW.bestP0, stW.bestR1, stW.bestF2) ∧
      stW.bestPred = predsAt lgLin 1 [300, 301] Xw3 yw2 stW.bestThreshold ∧
      stW.accTrain = accuracy yw2 stW.bestPred ∧
      ∀ t ∈ ([3 / 2] : List ℚ), ∀ p0 r1 f2,
        metricAt lgLin 1 [300, 301] Xw3 yw2 t = .ok (p0, r1, f2) →
          f2 ≤ stW.bestF2) := by
  have hpos : (0 : ℚ) < stW.bestF2 := by norm_num [stW]
  exact ⟨⟨trainSweep_w, hpos⟩,
    c8_sweep_retains_argmax lgLin 1 [300, 301] Xw3 yw2 [3 / 2] stW trainSweep_w hpos⟩

/-- C9: on a test set lacking class-0 transitions the per-class division is
indeed numpy's silent NaN (`divNan 0 0 = none`), but the evaluation does not
run to completion: with two identical rows, label vector `[1]` and retained
threshold `0` the predictions are all `1`, sklearn reports on a single
label, and the two-way unpacking of the support ratios raises, terminating
that solve — for every external log function. -/
theorem c9_division_nan_but_metrics_crash :
    ∀ lg : ℚ → ℚ,
      divNan 0 ((countLabel [(1 : Fin 2)] 0 : ℕ) : ℚ) = none ∧
      evalTest lg eps8 (1 / 2) [300, 850] [zf, zf] [1] 0 =
        .error "cannot unpack supports into two class ratios" := by
  intro lg
  constructor
  · rw [show countLabel ([1] : List (Fin 2)) 0 = 0 from rfl, Nat.cast_zero, divNan,
      if_pos rfl]
  · rw [evalTest]
    simp only [transList, List.tail_cons, List.zip_cons_cons, List.zip_nil_right,
      List.map_cons, List.map_nil]
    rw [transPsi_zf, predRule_zf_zero]
    rw [show invWeightedFbeta 2 [(1 : Fin 2)] [(1 : Fin 2)] =
      .error "cannot unpack supports into two class ratios" from rfl]

end DistDisc
